import Mathlib

/-!
Shallow embedding of `pycoinnet/aitertools.py` (async stream primitives) and
proofs of the spec's claims about it.

Modelling conventions:
* The program runs under a single-threaded cooperative (asyncio) scheduler, so
  code between two `await` suspension points executes atomically.  Stateful
  objects become Lean structures; every method is a pure function from the old
  state to the new state plus its observable result.
* A raised Python exception that escapes to the caller is an `Except.error`.
* `asyncio.Future` chains (the linked slot chain of `push_aiter`) are modelled
  by the list of values the chain has resolved to, plus the status of the
  unresolved head slot.
-/

namespace Aitertools

/-- Python exceptions that the embedded code can raise to its caller. -/
inductive PyErr : Type
  | valueErrorClosed            -- `ValueError("%s closed" % self)`
  | attributeError              -- attribute lookup failure on an instance
  | typeError                   -- e.g. applying arithmetic to a non-numeric value
  | runtimeErrorAlreadyRunning  -- concurrent `__anext__` on a running async generator
  deriving DecidableEq, Repr

/-! ## `push_aiter` (Push Producer over a linked slot chain)

A `push_aiter` owns the head slot of a linked future chain.  `push_nowait`
resolves the current head to `(item, new_head)`; `stop` cancels the head.
The state is the list of values the chain holds (in push order), the
consumption position of the object's own inherited cursor (`_tail`), and
whether the head future has been cancelled. -/

structure PushAiter (α : Type) : Type where
  chain : List α        -- values resolved into the chain, in push order
  tailPos : Nat         -- index of the slot this object's own `_tail` points at
  headCancelled : Bool  -- whether `self._head` has been cancelled by `stop`
  deriving DecidableEq, Repr

/-- `push_aiter.__init__`: fresh future as both head and tail. -/
def PushAiter.mk0 (α : Type) : PushAiter α :=
  { chain := [], tailPos := 0, headCancelled := false }

/-- `push_aiter.push_nowait`: raises `ValueError` if the head is cancelled,
otherwise resolves the head to `(item, new_head)` and advances the head. -/
def push_nowait (s : PushAiter α) (item : α) : Except PyErr (PushAiter α) :=
  if s.headCancelled then .error .valueErrorClosed
  else .ok { s with chain := s.chain ++ [item] }

/-- `push_aiter.push`: `async` wrapper that just calls `push_nowait`;
it never suspends. -/
def push (s : PushAiter α) (item : α) : Except PyErr (PushAiter α) :=
  push_nowait s item

/-- `push_aiter.stop`: cancels the head future if it is not done.  The head is
always the unresolved tip of the chain (each `set_result` moves `_head` to a
fresh future), so the guard `not self._head.done()` only excludes an already
cancelled head; in either case the head ends up cancelled. -/
def PushAiter.stop (s : PushAiter α) : PushAiter α :=
  { s with headCancelled := true }

/-- Pushing a whole list of items with `push_nowait`, stopping at the first
raised exception. -/
def push_all (s : PushAiter α) : List α → Except PyErr (PushAiter α)
  | [] => .ok s
  | a :: rest =>
    match push_nowait s a with
    | .error e => .error e
    | .ok s' => push_all s' rest

/-- The attribute names a `push_aiter` instance has: `linked_aiter.__init__`
sets `_tail`, `_lock`, `_next_callback_f`, and `push_aiter.__init__` adds
`_head`.  No attribute named `tail` (without underscore) is ever set, and the
classes define no such property. -/
def pushAiterAttrs : List String := ["_tail", "_lock", "_next_callback_f", "_head"]

/-- A cursor over the linked chain: the index of the slot its `_tail`
reference points at. -/
structure Cursor : Type where
  pos : Nat
  deriving DecidableEq, Repr

/-- `linked_aiter.split`: evaluates `self.tail` to build the copy.  Python
attribute lookup on the instance finds only the attributes in
`pushAiterAttrs`, so the lookup of `tail` raises `AttributeError` before the
new `linked_aiter` is constructed.  The success branch (what the code would do
if the lookup succeeded) is unreachable. -/
def split (s : PushAiter α) (is_active : Bool) : Except PyErr Cursor :=
  if pushAiterAttrs.contains "tail" then
    -- unreachable: would return a new cursor at the same slot
    .ok { pos := s.tailPos }
  else .error .attributeError

/-! ## `q_aiter` (Bounded Queue Stream)

State: the FIFO buffer, the queue's `maxsize` (asyncio semantics: `maxsize = 0`
means unbounded and the queue is never full), the `_stopping` future's state
and the `_stopped` flag. -/

structure QAiter (α : Type) : Type where
  q : List α
  maxsize : Nat
  stopping : Bool
  stopped : Bool
  deriving DecidableEq, Repr

/-- `q_aiter.__init__` with a fresh `asyncio.Queue(maxsize=maxsize)`. -/
def QAiter.mk0 (α : Type) (maxsize : Nat) : QAiter α :=
  { q := [], maxsize := maxsize, stopping := false, stopped := false }

/-- `q_aiter.full`, i.e. `asyncio.Queue.full`: `False` when `maxsize <= 0`,
otherwise `qsize() >= maxsize`. -/
def q_full (s : QAiter α) : Bool :=
  if s.maxsize = 0 then false else decide (s.maxsize ≤ s.q.length)

/-- `q_aiter.stop`: resolves the `_stopping` future (idempotent). -/
def q_stop (s : QAiter α) : QAiter α :=
  { s with stopping := true }

/-- A completed `asyncio.Queue.put` (only possible when the queue is not
full): appends the item at the back of the FIFO buffer. -/
def q_put (s : QAiter α) (a : α) : QAiter α :=
  { s with q := s.q ++ [a] }

/-- `q_aiter.push_nowait`, one item: raises `ValueError` if stopping; if the
queue is full, invokes the optional `full_callback` and drops the item
(result flag `true` = dropped); otherwise `put_nowait`s it. -/
def q_push_nowait1 (s : QAiter α) (a : α) : Except PyErr (QAiter α × Bool) :=
  if s.stopping then .error .valueErrorClosed
  else if q_full s then .ok (s, true)
  else .ok (q_put s a, false)

/-- `q_aiter.push_nowait` over a list of items, collecting the dropped ones. -/
def q_push_nowait_all (s : QAiter α) : List α → Except PyErr (QAiter α × List α)
  | [] => .ok (s, [])
  | a :: rest =>
    match q_push_nowait1 s a with
    | .error e => .error e
    | .ok (s', dropped) =>
      match q_push_nowait_all s' rest with
      | .error e => .error e
      | .ok (s'', ds) => .ok (s'', (if dropped then [a] else []) ++ ds)

/-- Result of the blocking `q_aiter.push`: either all items were enqueued, or
a `ValueError` was raised, or the producer is suspended on `await q.put(_)`
with the remaining items still pending. -/
inductive QPushRes (α : Type) : Type
  | done (s : QAiter α)
  | closed
  | blocked (s : QAiter α) (pending : List α)
  deriving DecidableEq, Repr

/-- `q_aiter.push` (blocking): for each item, raise `ValueError` if stopping,
else `await q.put(item)`, which suspends while the queue is full. -/
def q_push (s : QAiter α) : List α → QPushRes α
  | [] => .done s
  | a :: rest =>
    if s.stopping then .closed
    else if q_full s then .blocked s (a :: rest)
    else q_push (q_put s a) rest

/-- Observable outcome of one `q_aiter.__anext__` call. -/
inductive ANextRes (α : Type) : Type
  | item (a : α)
  | stopIter        -- `StopAsyncIteration` raised
  | blocked         -- suspended awaiting `q.get()` / `_stopping`
  deriving DecidableEq, Repr

/-- `q_aiter.__anext__`: if stopping is done, return `get_nowait()` if an item
is buffered, else set `_stopped` and raise `StopAsyncIteration` (and raise
immediately once `_stopped`).  Otherwise race `q.get()` against `_stopping`:
with a buffered item the get wins at once; with an empty buffer the call
suspends. -/
def q_anext (s : QAiter α) : ANextRes α × QAiter α :=
  if s.stopping then
    if s.stopped then (.stopIter, s)
    else
      match s.q with
      | a :: rest => (.item a, { s with q := rest })
      | [] => (.stopIter, { s with stopped := true })
  else
    match s.q with
    | a :: rest => (.item a, { s with q := rest })
    | [] => (.blocked, s)

/-- Repeatedly calling `q_aiter.__anext__` until it raises
`StopAsyncIteration` or suspends, collecting the returned items.  On a
stopping queue this drains the buffer in FIFO order and then stops. -/
def q_drain (s : QAiter α) : List α :=
  match h : q_anext s with
  | (.item a, s') =>
    have : s'.q.length < s.q.length := by
      unfold q_anext at h
      split at h
      · split at h
        · simp at h
        · split at h
          · injection h with h1 h2
            subst h2
            simp_all
          · simp at h
      · split at h
        · injection h with h1 h2
          subst h2
          simp_all
        · simp at h
    a :: q_drain s'
  | (.stopIter, _) => []
  | (.blocked, _) => []
termination_by s.q.length

/-- The C3 scenario: one producer task pushing `pending` into the queue with
the blocking `push`, one consumer task draining via `__anext__`, under the
cooperative scheduler.  The producer runs until `await q.put` suspends on a
full queue; then the consumer's pending `q.get()` completes, which makes room
and lets the blocked `put` complete.  When the producer has pushed everything
it calls `stop()`, and the consumer drains the rest.  Returns the full list of
items the consumer received before `StopAsyncIteration`. -/
def producer_consumer_run (s : QAiter α) : List α → List α
  | [] => q_drain (q_stop s)
  | a :: rest =>
    if q_full s then
      match q_anext s with
      | (.item v, s') => v :: producer_consumer_run (q_put s' a) rest
      | (_, _) => []   -- unreachable: a full queue is nonempty and not stopping
    else producer_consumer_run (q_put s a) rest

/-! ## `map_aiter` (per-item transform with error isolation)

The user-supplied map function either produces a value or raises; the loop
body wraps each application in `try/except Exception`, logs, and continues
with the next item. -/

/-- `map_aiter` over a finite input stream. -/
def map_aiter (map_f : α → Except PyErr β) : List α → List β
  | [] => []
  | a :: rest =>
    match map_f a with
    | .ok b => b :: map_aiter map_f rest
    | .error _ => map_aiter map_f rest  -- logging.exception(...); item dropped

/-- A Python value that is either an int or a str, for the spec's
`[1, "x", 2]` example. -/
inductive PyVal : Type
  | int (n : Int)
  | str (s : String)
  deriving DecidableEq, Repr

/-- The example mapping function: doubles numeric input, raises `TypeError`
on non-numeric input. -/
def double_f : PyVal → Except PyErr PyVal
  | .int n => .ok (.int (2 * n))
  | .str _ => .error .typeError

/-! ## `azip` (synchronized zip)

Each round the code runs `[await it.__anext__() for it in anext_list]`: the
inputs are advanced sequentially, in order; the first `StopAsyncIteration`
breaks out of the `while` loop; otherwise the tuple of results is yielded.
We embed the two-stream case; each input is the list of its remaining items.
The result is the list of yielded pairs together with the final (unconsumed)
remainders of both inputs. -/

def azip2 : List α → List β → List (α × β) × (List α × List β)
  | [], ys => ([], ([], ys))            -- first input ends; second not advanced
  | _ :: xs', [] => ([], (xs', []))     -- first advanced this round, then second ends
  | a :: xs', b :: ys' =>
    let r := azip2 xs' ys'
    ((a, b) :: r.1, r.2)

/-! ## `sharable_aiter` / `parallel_map_aiter` (worker fan-out over one cursor)

`sharable_aiter.__anext__` is `return await self._aiter.__anext__()` — a bare
forward with NO lock, so the call spans a suspension point inside the
underlying iterator.  When that underlying iterator is an async generator
(this library's own `iter_to_aiter`, `map_aiter`, `flatten_aiter` and
`join_aiters` all are), a second `__anext__` driven while one is still
suspended inside the generator body raises `RuntimeError`; it does not wait
and does not receive an item.  We embed the forwarded call as its two halves
around that suspension point, and model `parallel_map_aiter`'s
`worker_count` workers as a state holding the remaining upstream items and
one inbox per worker. -/

/-- The single underlying iterator shared through a `sharable_aiter`, as an
async generator: its remaining items plus whether one `__anext__` call is
currently suspended inside the generator body. -/
structure GenUpstream (α : Type) : Type where
  items : List α
  running : Bool
  deriving DecidableEq, Repr

/-- First half of the forwarded `__anext__` of `sharable_aiter`: the call
enters the underlying generator.  If another call is already suspended
inside the body, the generator raises `RuntimeError` (already running) —
there is no lock to wait on; otherwise the body runs up to its own
suspension point. -/
def sharable_anext_enter (u : GenUpstream α) : Except PyErr (GenUpstream α) :=
  if u.running then .error .runtimeErrorAlreadyRunning
  else .ok { u with running := true }

/-- Second half of the forwarded `__anext__`: the generator resumes and
yields the next item to the one caller suspended on it; `none` models
`StopAsyncIteration` on an exhausted upstream. -/
def sharable_anext_resume (u : GenUpstream α) : Option α × GenUpstream α :=
  match u.items with
  | [] => (none, { items := [], running := false })
  | v :: rest => (some v, { items := rest, running := false })

structure SharedPull (α : Type) (k : Nat) : Type where
  upstream : List α
  received : List (List α)     -- length k, one inbox per worker

/-- Initial state: full upstream, every worker has received nothing. -/
def SharedPull.init (α : Type) (k : Nat) (xs : List α) : SharedPull α k :=
  { upstream := xs, received := List.replicate k [] }

/-- Worker `i` performs one NON-OVERLAPPING advance of the shared cursor:
its forwarded `__anext__` enters the idle upstream and runs to completion
(`sharable_anext_enter` then `sharable_anext_resume`) before any other
worker advances, so the yielded item is delivered to worker `i` alone; on an
exhausted upstream the worker observes `StopAsyncIteration` and the state is
unchanged.  This serialization is a scheduling assumption, not something the
lock-free source enforces — see `overlap_run` for what happens when two
advances do overlap. -/
def pull (s : SharedPull α k) (i : Fin k) : SharedPull α k :=
  match sharable_anext_enter { items := s.upstream, running := false } with
  | .error _ => s   -- not taken: the upstream is idle here
  | .ok u1 =>
    match sharable_anext_resume u1 with
    | (none, _) => s
    | (some v, u2) =>
      { upstream := u2.items
        received := s.received.set i.val ((s.received.getD i.val []) ++ [v]) }

/-- The overlapping schedule of two `parallel_map_aiter` workers over one
shared suspending upstream: worker A's forwarded `__anext__` enters the
upstream and suspends inside it; worker B advances the same shared cursor
before A resumes.  B's call raises `RuntimeError` instead of waiting or
receiving an item (`join_aiters` re-raises it when awaiting B's job,
crashing the joined output stream); A's suspended call still resumes with
its item; whatever remains upstream is never delivered to any worker.
Returns ((A's items, B's outcome), final upstream). -/
def overlap_run (items : List α) :
    (List α × Except PyErr (List α)) × GenUpstream α :=
  match sharable_anext_enter { items := items, running := false } with
  | .error e => (([], .error e), { items := items, running := false })  -- not taken
  | .ok u1 =>
    match sharable_anext_enter u1 with
    | .ok u2 => (([], .ok []), u2)    -- not taken: u1 is running
    | .error e =>
      match sharable_anext_resume u1 with
      | (some v, u2) => (([v], .error e), u2)
      | (none, u2) => (([], .error e), u2)

/-- Run the shared-cursor system under a schedule: the sequence of worker
indices in the order the scheduler lets them advance the shared cursor. -/
def run_sched (s : SharedPull α k) : List (Fin k) → SharedPull α k
  | [] => s
  | i :: sched => run_sched (pull s i) sched

/-- All items received across the workers, worker by worker. -/
def all_received (s : SharedPull α k) : List α :=
  s.received.foldr (· ++ ·) []

/-! ## `aiter_forker` (fork multiplexer with single-flight fetch)

Each fork is a `q_aiter` created by `new_fork` with the default `maxsize=0`
(unbounded, never full).  An active fork's `__anext__` loops
`while q.empty() and not stopping: await self._fetch_next()` and then
dequeues.  `_fetch_next` checks the `_is_fetching` semaphore: if it is locked
a concurrent fetch is in progress, so the caller just waits for it to be
released and returns without touching the upstream; otherwise it acquires the
semaphore, awaits one upstream `__anext__`, and either fans the value out to
every registered fork with `push_nowait` or, on `StopAsyncIteration`, calls
`stop()` on every registered fork.

We model the system as a labelled transition system.  Atomic sections follow
the `await` points of the source: the loop-condition check, the `locked()`
test and a successful (non-suspending) acquire are one synchronous stretch;
the upstream `await` is the in-flight window; the fan-out after it is again
synchronous.  A passive fork is one whose consumer only ever takes dequeue
steps (the relation allows more behaviours; every invariant below holds for
all of them). -/

/-- Control point of one fork's consumer coroutine. -/
inductive ForkPhase : Type
  | ready      -- at the head of the `while` loop of `__anext__`
  | waitSem    -- suspended in `async with self._is_fetching` (fetch in progress elsewhere)
  | fetching   -- holds the semaphore; upstream `__anext__` in flight
  | fdone      -- `StopAsyncIteration` was raised to the consumer
  deriving DecidableEq, Repr

/-- One registered fork: its `q_aiter` buffer (maxsize 0), the items its
consumer has dequeued so far, its `_stopping` flag and its consumer's
control point. -/
structure ForkSt (α : Type) : Type where
  buf : List α
  out : List α
  stopping : Bool
  phase : ForkPhase
  deriving DecidableEq, Repr

/-- Global state of an `aiter_forker`: the remaining upstream items, the
registered forks, the `_is_fetching` semaphore, and a count of the upstream
`__anext__` calls issued so far. -/
structure ForkerSt (α : Type) : Type where
  upstream : List α
  forks : List (ForkSt α)
  sem : Bool
  advances : Nat
  deriving DecidableEq, Repr

/-- Initial state: `n` freshly registered forks over upstream `xs`. -/
def ForkerSt.init (xs : List α) (n : Nat) : ForkerSt α :=
  { upstream := xs
    forks := List.replicate n { buf := [], out := [], stopping := false, phase := .ready }
    sem := false
    advances := 0 }

/-- One transition of the forker system.  `i` is the index of the fork whose
consumer (or whose pending fetch) moves. -/
inductive Step : ForkerSt α → ForkerSt α → Prop
  /-- The loop condition finds the buffer nonempty (whether or not stopping):
  the consumer dequeues the head (`super().__anext__()` → `q.get()`). -/
  | consume (s : ForkerSt α) (i : Nat) (f : ForkSt α) (v : α) (rest : List α)
      (hf : s.forks.get? i = some f) (hph : f.phase = .ready) (hbuf : f.buf = v :: rest) :
      Step s { s with forks := s.forks.set i { f with buf := rest, out := f.out ++ [v] } }
  /-- Buffer empty and stopping: the loop exits and `super().__anext__()`
  raises `StopAsyncIteration`. -/
  | finish (s : ForkerSt α) (i : Nat) (f : ForkSt α)
      (hf : s.forks.get? i = some f) (hph : f.phase = .ready)
      (hbuf : f.buf = []) (hstop : f.stopping = true) :
      Step s { s with forks := s.forks.set i { f with phase := .fdone } }
  /-- Buffer empty, not stopping, semaphore free: `_fetch_next` sees
  `locked() = False`, acquires without suspending, and issues the upstream
  `__anext__` (now in flight). -/
  | startFetch (s : ForkerSt α) (i : Nat) (f : ForkSt α)
      (hf : s.forks.get? i = some f) (hph : f.phase = .ready)
      (hbuf : f.buf = []) (hstop : f.stopping = false) (hsem : s.sem = false) :
      Step s { s with sem := true, advances := s.advances + 1,
                      forks := s.forks.set i { f with phase := .fetching } }
  /-- Buffer empty, not stopping, semaphore held: `_fetch_next` sees
  `locked() = True` and suspends waiting for the semaphore. -/
  | joinWait (s : ForkerSt α) (i : Nat) (f : ForkSt α)
      (hf : s.forks.get? i = some f) (hph : f.phase = .ready)
      (hbuf : f.buf = []) (hstop : f.stopping = false) (hsem : s.sem = true) :
      Step s { s with forks := s.forks.set i { f with phase := .waitSem } }
  /-- A waiter acquires the released semaphore, immediately releases it and
  returns to the loop head without having touched the upstream. -/
  | endWait (s : ForkerSt α) (i : Nat) (f : ForkSt α)
      (hf : s.forks.get? i = some f) (hph : f.phase = .waitSem) (hsem : s.sem = false) :
      Step s { s with forks := s.forks.set i { f with phase := .ready } }
  /-- The in-flight upstream `__anext__` produces a value: it is
  `push_nowait`ed into every registered fork's buffer (maxsize 0: never full,
  never dropped), the semaphore is released and the fetching consumer goes
  back to its loop head. -/
  | fetchItem (s : ForkerSt α) (i : Nat) (f : ForkSt α) (v : α) (rest : List α)
      (hf : s.forks.get? i = some f) (hph : f.phase = .fetching)
      (hup : s.upstream = v :: rest) :
      Step s { upstream := rest
               forks := (s.forks.set i { f with phase := .ready }).map
                          (fun g => { g with buf := g.buf ++ [v] })
               sem := false
               advances := s.advances }
  /-- The in-flight upstream `__anext__` raises `StopAsyncIteration`:
  `stop()` is called on every registered fork, the semaphore is released. -/
  | fetchEnd (s : ForkerSt α) (i : Nat) (f : ForkSt α)
      (hf : s.forks.get? i = some f) (hph : f.phase = .fetching)
      (hup : s.upstream = []) :
      Step s { upstream := []
               forks := (s.forks.set i { f with phase := .ready }).map
                          (fun g => { g with stopping := true })
               sem := false
               advances := s.advances }

/-- The states the forker system can reach from `n` fresh forks over
upstream `xs`. -/
def Reachable (xs : List α) (n : Nat) (s : ForkerSt α) : Prop :=
  Relation.ReflTransGen Step (ForkerSt.init xs n) s

/-- Number of forks whose upstream fetch is currently in flight. -/
def countFetching (s : ForkerSt α) : Nat :=
  s.forks.countP (fun f => decide (f.phase = ForkPhase.fetching))

/-- `aiter_forker.new_fork`'s backing stream: a `q_aiter` over a fresh
`asyncio.Queue(maxsize=0)`, the default `maxsize` argument of `new_fork`
(both for active and passive forks). -/
def new_fork_q (α : Type) : QAiter α := QAiter.mk0 α 0

/-! ## Theorems -/

/-- Helper: `map_aiter` keeps exactly the successful applications, in order. -/
theorem map_aiter_eq_filterMap (f : γ → Except PyErr δ) (xs : List γ) :
    map_aiter f xs = xs.filterMap (fun a => (f a).toOption) := by
  induction xs with
  | nil => rfl
  | cons a rest ih =>
    cases h : f a <;> simp [map_aiter, h, Except.toOption, ih]

/-- The inductive invariant of the forker system: `done` is the list of
items fetched so far and `t` the terminal flag.  Every fork has received
exactly the fetched items in order; stop flags are uniform and only set once
the upstream is exhausted; the semaphore is free exactly when no fetch is in
flight; at most one fetch is ever in flight; the number of upstream
`__anext__` calls is the items fetched, plus the in-flight one, plus the
terminal one. -/
def ForkerInv (xs : List α) (s : ForkerSt α) : Prop :=
  ∃ (done : List α) (t : Bool),
    xs = done ++ s.upstream ∧
    (∀ f ∈ s.forks, f.out ++ f.buf = done ∧ f.stopping = t) ∧
    (t = true → s.sem = false ∧ s.upstream = []) ∧
    (s.sem = false → countFetching s = 0) ∧
    countFetching s ≤ 1 ∧
    s.advances = done.length + (if s.sem then 1 else 0) + (if t then 1 else 0)

/-- Claim C1 (code-bug evidence).  The claim says every cursor obtained via
`split()` on a push producer yields the pushed values and then
end-of-sequence.  In the code, `linked_aiter.split` evaluates `self.tail`,
but the instance only has `_tail` (plus `_lock`, `_next_callback_f`,
`_head`), so every call to `split` raises `AttributeError` instead of
returning a cursor: here, concretely, after pushing two values and stopping,
and in general for every state of the producer. -/
theorem claim_C1_split_raises_attribute_error :
    push_all (PushAiter.mk0 Nat) [1, 2]
        = Except.ok { chain := [1, 2], tailPos := 0, headCancelled := false } ∧
    split (PushAiter.stop
        { chain := [1, 2], tailPos := 0, headCancelled := false }) true
        = Except.error PyErr.attributeError ∧
    ∀ (γ : Type) (s : PushAiter γ) (b : Bool),
      split s b = Except.error PyErr.attributeError := by
  refine ⟨rfl, rfl, ?_⟩
  intro γ s b
  rfl

/-- Claim C6: `map_aiter` catches any exception of the mapping function at
the per-item boundary: the failing item is dropped and the output continues
with the next item (the output is exactly the successful results, in order);
in particular, doubling over `[1, "x", 2]` yields `[2, 4]`. -/
theorem claim_C6_map_error_isolation :
    (∀ (γ δ : Type) (f : γ → Except PyErr δ) (xs : List γ),
       map_aiter f xs = xs.filterMap (fun a => (f a).toOption)) ∧
    map_aiter double_f [PyVal.int 1, PyVal.str "x", PyVal.int 2]
      = [PyVal.int 2, PyVal.int 4] := by
  refine ⟨?_, rfl⟩
  intro γ δ f xs
  exact map_aiter_eq_filterMap f xs

/-- Claim C7: once a `push_aiter`'s head is stopped, or `stop()` was called
on a `q_aiter`, every subsequent push — blocking `push` or `push_nowait` —
raises the closed-stream `ValueError` synchronously to the producer, for
every state and every pushed item. -/
theorem claim_C7_push_after_stop_raises :
    (∀ (γ : Type) (s : PushAiter γ) (a : γ),
       push_nowait (PushAiter.stop s) a = Except.error PyErr.valueErrorClosed ∧
       push (PushAiter.stop s) a = Except.error PyErr.valueErrorClosed) ∧
    (∀ (γ : Type) (s : QAiter γ) (a : γ) (items : List γ),
       q_push_nowait1 (q_stop s) a = Except.error PyErr.valueErrorClosed ∧
       q_push (q_stop s) (a :: items) = QPushRes.closed) := by
  constructor
  · intro γ s a
    constructor <;> simp [push, push_nowait, PushAiter.stop]
  · intro γ s a items
    constructor
    · simp [q_push_nowait1, q_stop]
    · simp [q_push, q_stop]

/-- Claim C9: a `push_aiter` that has not been stopped accepts every push
immediately: pushing any list of items never raises, never suspends
(`push_nowait` is a plain function and `push` only wraps it), and appends
all the items to the chain with no capacity bound. -/
theorem claim_C9_push_never_blocks_unbounded :
    ∀ (γ : Type) (chain : List γ) (tp : Nat) (items : List γ),
      push_all { chain := chain, tailPos := tp, headCancelled := false } items
        = Except.ok { chain := chain ++ items, tailPos := tp, headCancelled := false } := by
  intro γ chain tp items
  induction items generalizing chain with
  | nil => simp [push_all]
  | cons a rest ih =>
    simp [push_all, push_nowait, ih]

/-- Claim C10: a fork created by `new_fork` with the default `maxsize = 0`
has an unbounded buffer: such a queue is never `full()`, so the forker's
non-blocking fan-out `push_nowait` always takes the enqueue branch — pushing
any list of items into any not-stopped state of the fork's queue buffers all
of them in order and drops none. -/
theorem claim_C10_default_fork_never_drops :
    new_fork_q γ = { q := [], maxsize := 0, stopping := false, stopped := false } ∧
    ∀ (q : List γ) (st : Bool) (items : List γ),
      q_full { q := q, maxsize := 0, stopping := false, stopped := st } = false ∧
      q_push_nowait_all { q := q, maxsize := 0, stopping := false, stopped := st } items
        = Except.ok ({ q := q ++ items, maxsize := 0, stopping := false, stopped := st }, []) := by
  refine ⟨rfl, ?_⟩
  intro q st items
  constructor
  · rfl
  · induction items generalizing q with
    | nil => simp [q_push_nowait_all]
    | cons a rest ih =>
      simp [q_push_nowait_all, q_push_nowait1, q_full, q_put, ih (q ++ [a])]

/-- Helper: full characterisation of the two-stream `azip`.  The emitted
pairs are exactly `List.zip` of the inputs; when the first input is the one
that ends, the second is not advanced past the last emitted round; when the
second ends, the first had already been advanced once in the failing round
(sequential `await`s) but never after. -/
theorem azip2_spec (xs : List γ) (ys : List δ) :
    (azip2 xs ys).1 = List.zip xs ys ∧
    (azip2 xs ys).2 = (if xs.length ≤ ys.length
                       then ([], ys.drop xs.length)
                       else (xs.drop (ys.length + 1), [])) := by
  induction xs generalizing ys with
  | nil => simp [azip2]
  | cons a xs' ih =>
    cases ys with
    | nil => simp [azip2]
    | cons b ys' =>
      obtain ⟨h1, h2⟩ := ih ys'
      constructor
      · simp [azip2, h1]
      · simp only [azip2, h2, List.length_cons]
        rcases Nat.le_total xs'.length ys'.length with h | h
        · simp [h]
        · rcases Nat.eq_or_lt_of_le h with h' | h'
          · simp [h'.symm.le, h']
          · simp [Nat.not_le.mpr h', Nat.le_of_lt h']

/-- Claim C8: `azip` emits one combined tuple per round and ends as soon as
any input ends: the output is exactly the pointwise zip, of length the
minimum of the input lengths, and once an input ends the others are not
advanced any further (the final remainders are as characterised).  In
particular, zipping a stream of length 3 with one of length 5 yields exactly
3 tuples, then ends, leaving the longer input's last two items unconsumed. -/
theorem claim_C8_azip_short_circuit :
    (∀ (γ δ : Type) (xs : List γ) (ys : List δ),
       (azip2 xs ys).1 = List.zip xs ys ∧
       ((azip2 xs ys).1).length = min xs.length ys.length ∧
       (azip2 xs ys).2 = (if xs.length ≤ ys.length
                          then ([], ys.drop xs.length)
                          else (xs.drop (ys.length + 1), []))) ∧
    azip2 [1, 2, 3] [10, 20, 30, 40, 50]
      = ([(1, 10), (2, 20), (3, 30)], ([], [40, 50])) := by
  refine ⟨?_, rfl⟩
  intro γ δ xs ys
  obtain ⟨h1, h2⟩ := azip2_spec xs ys
  refine ⟨h1, ?_, h2⟩
  rw [h1]
  exact List.length_zip xs ys

/-- Helper: draining a stopping, not-yet-stopped `q_aiter` yields exactly the
buffered items in FIFO order before `StopAsyncIteration`. -/
theorem q_drain_stopping (γ : Type) (m : Nat) (q : List γ) :
    q_drain { q := q, maxsize := m, stopping := true, stopped := false } = q := by
  induction q with
  | nil => rw [q_drain]; simp [q_anext]
  | cons a rest ih => rw [q_drain]; simpa [q_anext] using ih

/-- Helper: the producer/consumer scenario delivers the buffer plus all
pending items, in push order. -/
theorem producer_consumer_run_eq (γ : Type) (pending : List γ) :
    ∀ (s : QAiter γ), s.stopping = false → s.stopped = false →
      producer_consumer_run s pending = s.q ++ pending := by
  induction pending with
  | nil =>
    intro s h1 h2
    show q_drain (q_stop s) = s.q ++ []
    have : q_stop s = { q := s.q, maxsize := s.maxsize, stopping := true, stopped := false } := by
      simp [q_stop, h2]
    rw [this, q_drain_stopping]
    simp
  | cons a rest ih =>
    intro s h1 h2
    show (if q_full s then _ else _) = _
    by_cases hfull : q_full s
    · have hne : s.q ≠ [] := by
        intro hq
        simp [q_full, hq] at hfull
      obtain ⟨v, q', hq⟩ := List.exists_cons_of_ne_nil hne
      have hnext : q_anext s = (.item v, { s with q := q' }) := by
        simp [q_anext, h1, hq]
      simp only [hfull, if_pos, hnext]
      rw [ih (q_put { s with q := q' } a) (by simp [q_put, h1]) (by simp [q_put, h2])]
      simp [q_put, hq]
    · simp only [hfull, if_neg, Bool.false_eq_true, not_false_eq_true]
      rw [ih (q_put s a) (by simp [q_put, h1]) (by simp [q_put, h2])]
      simp [q_put]

/-- Claim C3: for a `q_aiter` of any capacity, a producer pushing its items
with the blocking `push` (suspending whenever the queue is full, resuming as
the consumer makes room) followed by `stop()`, against a consumer advancing
repeatedly, delivers all pushed items in FIFO order followed by
`StopAsyncIteration` — in particular `cap + 1` items through a capacity-`cap`
queue.  Moreover after `stop`, `__anext__` returns a buffered item whenever
one is available and raises `StopAsyncIteration` exactly once the buffer is
empty. -/
theorem claim_C3_bounded_queue_fifo_drain :
    (∀ (γ : Type) (cap : Nat) (items : List γ),
       producer_consumer_run (QAiter.mk0 γ cap) items = items) ∧
    (∀ (γ : Type) (m : Nat) (a : γ) (q : List γ),
       q_anext { q := a :: q, maxsize := m, stopping := true, stopped := false }
         = (.item a, { q := q, maxsize := m, stopping := true, stopped := false }) ∧
       q_anext { q := ([] : List γ), maxsize := m, stopping := true, stopped := false }
         = (.stopIter, { q := [], maxsize := m, stopping := true, stopped := true }) ∧
       q_anext { q := ([] : List γ), maxsize := m, stopping := true, stopped := true }
         = (.stopIter, { q := [], maxsize := m, stopping := true, stopped := true })) := by
  constructor
  · intro γ cap items
    rw [producer_consumer_run_eq γ items (QAiter.mk0 γ cap) rfl rfl]
    simp [QAiter.mk0]
  · intro γ m a q
    refine ⟨?_, ?_, ?_⟩ <;> simp [q_anext]

/-- Helper: a serialized advance — enter the idle upstream, run to the
suspension point, resume — amounts to removing the upstream head and
delivering it to the advancing worker's inbox. -/
theorem pull_eq (s : SharedPull γ k) (i : Fin k) :
    pull s i
      = (match s.upstream with
         | [] => s
         | v :: rest =>
           { upstream := rest
             received := s.received.set i.val ((s.received.getD i.val []) ++ [v]) }) := by
  unfold pull sharable_anext_enter sharable_anext_resume
  cases s.upstream <;> simp

/-- Helper: `pull` preserves the number of worker inboxes. -/
theorem pull_received_length (s : SharedPull γ k) (i : Fin k) :
    (pull s i).received.length = s.received.length := by
  rw [pull_eq]
  cases s.upstream <;> simp

/-- Helper: `pull` consumes exactly one upstream item when any remain. -/
theorem pull_upstream_length (s : SharedPull γ k) (i : Fin k) :
    (pull s i).upstream.length = s.upstream.length - 1 := by
  rw [pull_eq]
  cases hup : s.upstream with
  | nil => simp [hup]
  | cons v rest => simp [hup]

/-- Helper: the flattened contents of `k` empty inboxes is empty. -/
theorem foldr_replicate_nil (γ : Type) (k : Nat) :
    (List.replicate k ([] : List γ)).foldr (· ++ ·) [] = [] := by
  induction k with
  | zero => rfl
  | succ k' ih => simpa [List.replicate] using ih

/-- Helper: replacing inbox `i` by itself extended with `v` adds exactly `v`
to the multiset of all received items. -/
theorem foldr_append_set (l : List (List γ)) (v : γ) :
    ∀ (i : Nat), i < l.length →
      (((l.set i ((l.getD i []) ++ [v])).foldr (· ++ ·) [] : List γ) : Multiset γ)
        = v ::ₘ ((l.foldr (· ++ ·) [] : List γ) : Multiset γ) := by
  induction l with
  | nil => intro i h; simp at h
  | cons hd tl ih =>
    intro i hi
    cases i with
    | zero =>
      simp only [List.set, List.getD_cons_zero, List.foldr]
      have h1 : ((((hd ++ [v]) ++ tl.foldr (· ++ ·) [] : List γ)) : Multiset γ)
          = ↑(hd ++ [v]) + ↑(tl.foldr (· ++ ·) []) := by
        simp
      have h2 : ((hd ++ tl.foldr (· ++ ·) [] : List γ) : Multiset γ)
          = ↑hd + ↑(tl.foldr (· ++ ·) []) := by simp
      rw [h1, h2]
      simp [Multiset.cons_swap]
    | succ i' =>
      simp only [List.set, List.getD_cons_succ, List.foldr]
      have hi' : i' < tl.length := by simpa using hi
      have h1 : ((hd ++ (tl.set i' ((tl.getD i' []) ++ [v])).foldr (· ++ ·) [] : List γ) : Multiset γ)
          = ↑hd + ↑((tl.set i' ((tl.getD i' []) ++ [v])).foldr (· ++ ·) []) := by simp
      have h2 : ((hd ++ tl.foldr (· ++ ·) [] : List γ) : Multiset γ)
          = ↑hd + ↑(tl.foldr (· ++ ·) []) := by simp
      rw [h1, ih i' hi', h2]
      rw [Multiset.add_cons]

/-- Helper: one pull conserves the combined multiset of delivered and
remaining items. -/
theorem pull_conserves (s : SharedPull γ k) (i : Fin k)
    (hlen : s.received.length = k) :
    ((all_received (pull s i) : List γ) : Multiset γ) + ((pull s i).upstream : Multiset γ)
      = ((all_received s : List γ) : Multiset γ) + (s.upstream : Multiset γ) := by
  rw [pull_eq]
  cases hup : s.upstream with
  | nil => simp [hup]
  | cons v rest =>
    simp only [all_received]
    rw [foldr_append_set s.received v i.val (by rw [hlen]; exact i.isLt)]
    have hcoe : ((v :: rest : List γ) : Multiset γ) = v ::ₘ (rest : Multiset γ) := by simp
    rw [hcoe, Multiset.cons_add, Multiset.add_cons]

/-- Helper: running any schedule conserves the combined multiset and
shortens the upstream by one item per scheduled pull. -/
theorem run_sched_conserves (sched : List (Fin k)) :
    ∀ (s : SharedPull γ k), s.received.length = k →
      ((all_received (run_sched s sched) : List γ) : Multiset γ)
          + ((run_sched s sched).upstream : Multiset γ)
        = ((all_received s : List γ) : Multiset γ) + (s.upstream : Multiset γ) ∧
      (run_sched s sched).upstream.length = s.upstream.length - sched.length := by
  induction sched with
  | nil => intro s h; simp [run_sched]
  | cons i sched' ih =>
    intro s h
    have hlen' : (pull s i).received.length = k := by
      rw [pull_received_length]; exact h
    obtain ⟨ih1, ih2⟩ := ih (pull s i) hlen'
    constructor
    · simp only [run_sched]
      rw [ih1, pull_conserves s i h]
    · simp only [run_sched]
      rw [ih2, pull_upstream_length]
      simp only [List.length_cons]
      omega

/-- Claim C2 (counterexample): `sharable_aiter` provides no mutual
exclusion — its `__anext__` forwards across an await with no lock.  On the
concrete upstream `[10, 20]` with two workers, the overlapping schedule
leaves worker A with `[10]` while worker B's advancement of the shared
cursor raises `RuntimeError` instead of waiting or consuming an item, and
`20` is still upstream with the joined output crashed: the workers'
multisets do not partition the upstream items, refuting the claim as
stated. -/
theorem claim_C2_counterexample_overlap :
    overlap_run ([10, 20] : List Nat)
      = (([10], Except.error PyErr.runtimeErrorAlreadyRunning),
         { items := [20], running := false }) := rfl

/-- Claim C2, amended: `sharable_aiter.__anext__` holds no lock, so mutually
exclusive advancement of the shared cursor is not enforced by the code but
must come from scheduling; whenever the workers' advances do not overlap —
each forwarded `__anext__` entering the idle upstream and running to
completion before the next one starts, which is what `pull` embeds — each
upstream item is delivered to exactly the one worker that advanced: for
every worker count, upstream and schedule of such serialized advances, the
items received across the workers together with the remaining upstream form
exactly the upstream multiset (no duplication, no loss), and the upstream
shrinks by one item per advance, so a schedule with at least as many
advances as items consumes everything and the workers' multisets partition
the upstream items. -/
theorem claim_C2_serialized_pull_partition :
    ∀ (γ : Type) (k : Nat) (xs : List γ) (sched : List (Fin k)),
      ((all_received (run_sched (SharedPull.init γ k xs) sched) : List γ) : Multiset γ)
          + ((run_sched (SharedPull.init γ k xs) sched).upstream : Multiset γ)
        = (xs : Multiset γ) ∧
      (run_sched (SharedPull.init γ k xs) sched).upstream.length
        = xs.length - sched.length := by
  intro γ k xs sched
  have hlen : (SharedPull.init γ k xs).received.length = k := by
    simp [SharedPull.init]
  obtain ⟨h1, h2⟩ := run_sched_conserves sched (SharedPull.init γ k xs) hlen
  constructor
  · rw [h1]
    simp [all_received, SharedPull.init, foldr_replicate_nil]
  · simpa [SharedPull.init] using h2

/-- Helper: additive form of `countP` across a single-index update. -/
theorem countP_set_add (p : β → Bool) (l : List β) :
    ∀ (i : Nat) (f f' : β), l.get? i = some f →
      (l.set i f').countP p + (if p f then 1 else 0)
        = l.countP p + (if p f' then 1 else 0) := by
  induction l with
  | nil => intro i f f' h; simp at h
  | cons x l ih =>
    intro i f f' h
    cases i with
    | zero =>
      simp only [List.get?] at h
      injection h with h
      subst h
      simp only [List.set, List.countP_cons]
      omega
    | succ i' =>
      simp only [List.get?] at h
      simp only [List.set, List.countP_cons]
      have h2 := ih i' f f' h
      omega

/-- Helper: updating an entry without changing its `p`-status keeps the
count. -/
theorem countP_set_same (p : β → Bool) (l : List β) (i : Nat)
    (f f' : β) (h : l.get? i = some f) (hpp : p f' = p f) :
    (l.set i f').countP p = l.countP p := by
  have h2 := countP_set_add p l i f f' h
  rw [hpp] at h2
  omega

/-- Helper: the initial forker state has no fetch in flight. -/
theorem countFetching_init (γ : Type) (xs : List γ) (n : Nat) :
    countFetching (ForkerSt.init xs n : ForkerSt γ) = 0 := by
  simp only [countFetching, ForkerSt.init]
  rw [List.countP_eq_zero]
  intro f hf
  have hf' := List.eq_of_mem_replicate hf
  subst hf'
  simp

/-- Helper: the invariant holds initially. -/
theorem forker_inv_init (γ : Type) (xs : List γ) (n : Nat) :
    ForkerInv xs (ForkerSt.init xs n : ForkerSt γ) := by
  refine ⟨[], false, by simp [ForkerSt.init], ?_, by simp, ?_, ?_, by simp [ForkerSt.init]⟩
  · intro f hf
    simp only [ForkerSt.init] at hf
    have hf' := List.eq_of_mem_replicate hf
    subst hf'
    simp
  · intro _
    exact countFetching_init γ xs n
  · rw [countFetching_init γ xs n]
    omega

/-- Helper: each transition of the forker system preserves the invariant. -/
theorem forker_inv_step (γ : Type) (xs : List γ) (s s' : ForkerSt γ)
    (hinv : ForkerInv xs s) (hstep : Step s s') : ForkerInv xs s' := by
  obtain ⟨done, t, hpre, hforks, hterm, hsem0, hle, hadv⟩ := hinv
  cases hstep with
  | consume i f v rest hf hph hbuf =>
    have hsame := countP_set_same (fun (g : ForkSt γ) => decide (g.phase = ForkPhase.fetching))
        s.forks i f { f with buf := rest, out := f.out ++ [v] } hf rfl
    refine ⟨done, t, hpre, ?_, hterm, ?_, ?_, hadv⟩
    · intro g hg
      rcases List.mem_or_eq_of_mem_set hg with hg' | hg'
      · exact hforks g hg'
      · subst hg'
        obtain ⟨h1, h2⟩ := hforks f (List.get?_mem hf)
        refine ⟨?_, h2⟩
        show (f.out ++ [v]) ++ rest = done
        rw [← h1, hbuf]
        simp
    · intro hs
      have h0 := hsem0 hs
      simp only [countFetching] at h0 ⊢
      rw [hsame]
      exact h0
    · simp only [countFetching] at hle ⊢
      rw [hsame]
      exact hle
  | finish i f hf hph hbuf hstop =>
    have hsame := countP_set_same (fun (g : ForkSt γ) => decide (g.phase = ForkPhase.fetching))
        s.forks i f { f with phase := ForkPhase.fdone } hf (by simp [hph])
    refine ⟨done, t, hpre, ?_, hterm, ?_, ?_, hadv⟩
    · intro g hg
      rcases List.mem_or_eq_of_mem_set hg with hg' | hg'
      · exact hforks g hg'
      · subst hg'
        exact hforks f (List.get?_mem hf)
    · intro hs
      have h0 := hsem0 hs
      simp only [countFetching] at h0 ⊢
      rw [hsame]
      exact h0
    · simp only [countFetching] at hle ⊢
      rw [hsame]
      exact hle
  | startFetch i f hf hph hbuf hstop hsem =>
    have ht : t = false := by
      have h2 := (hforks f (List.get?_mem hf)).2
      rw [hstop] at h2
      exact h2.symm
    have hcnt : countFetching s = 0 := hsem0 hsem
    have hc := countP_set_add (fun (g : ForkSt γ) => decide (g.phase = ForkPhase.fetching))
        s.forks i f { f with phase := ForkPhase.fetching } hf
    simp [hph] at hc
    refine ⟨done, t, hpre, ?_, ?_, ?_, ?_, ?_⟩
    · intro g hg
      rcases List.mem_or_eq_of_mem_set hg with hg' | hg'
      · exact hforks g hg'
      · subst hg'
        exact hforks f (List.get?_mem hf)
    · intro h
      rw [ht] at h
      cases h
    · intro h
      cases h
    · show List.countP (fun (g : ForkSt γ) => decide (g.phase = ForkPhase.fetching))
          (s.forks.set i { f with phase := ForkPhase.fetching }) ≤ 1
      simp only [countFetching] at hcnt
      omega
    · have hd : s.advances = done.length := by
        rw [hsem, ht] at hadv
        simpa using hadv
      show s.advances + 1 = _
      rw [ht, hd]
      simp
  | joinWait i f hf hph hbuf hstop hsem =>
    have hsame := countP_set_same (fun (g : ForkSt γ) => decide (g.phase = ForkPhase.fetching))
        s.forks i f { f with phase := ForkPhase.waitSem } hf (by simp [hph])
    refine ⟨done, t, hpre, ?_, hterm, ?_, ?_, hadv⟩
    · intro g hg
      rcases List.mem_or_eq_of_mem_set hg with hg' | hg'
      · exact hforks g hg'
      · subst hg'
        exact hforks f (List.get?_mem hf)
    · intro hs
      have h0 := hsem0 hs
      simp only [countFetching] at h0 ⊢
      rw [hsame]
      exact h0
    · simp only [countFetching] at hle ⊢
      rw [hsame]
      exact hle
  | endWait i f hf hph hsem =>
    have hsame := countP_set_same (fun (g : ForkSt γ) => decide (g.phase = ForkPhase.fetching))
        s.forks i f { f with phase := ForkPhase.ready } hf (by simp [hph])
    refine ⟨done, t, hpre, ?_, hterm, ?_, ?_, hadv⟩
    · intro g hg
      rcases List.mem_or_eq_of_mem_set hg with hg' | hg'
      · exact hforks g hg'
      · subst hg'
        exact hforks f (List.get?_mem hf)
    · intro hs
      have h0 := hsem0 hs
      simp only [countFetching] at h0 ⊢
      rw [hsame]
      exact h0
    · simp only [countFetching] at hle ⊢
      rw [hsame]
      exact hle
  | fetchItem i f v rest hf hph hup =>
    have hcpos : 0 < countFetching s := by
      simp only [countFetching]
      rw [List.countP_pos_iff]
      exact ⟨f, List.get?_mem hf, by simp [hph]⟩
    have hsemT : s.sem = true := by
      cases hsv : s.sem
      · have h0 := hsem0 hsv
        omega
      · rfl
    have ht : t = false := by
      cases htv : t
      · rfl
      · obtain ⟨_, hup0⟩ := hterm htv
        rw [hup0] at hup
        cases hup
    have hc := countP_set_add (fun (g : ForkSt γ) => decide (g.phase = ForkPhase.fetching))
        s.forks i f { f with phase := ForkPhase.ready } hf
    simp [hph] at hc
    have hcnt0 : ((s.forks.set i { f with phase := ForkPhase.ready }).map
        (fun g => { g with buf := g.buf ++ [v] })).countP
          (fun g => decide (g.phase = ForkPhase.fetching)) = 0 := by
      rw [List.countP_map]
      have hco : ((fun (g : ForkSt γ) => decide (g.phase = ForkPhase.fetching)) ∘
          (fun g => { g with buf := g.buf ++ [v] }))
          = (fun (g : ForkSt γ) => decide (g.phase = ForkPhase.fetching)) := rfl
      rw [hco]
      simp only [countFetching] at hle hcpos
      omega
    refine ⟨done ++ [v], t, ?_, ?_, ?_, ?_, ?_, ?_⟩
    · show xs = (done ++ [v]) ++ rest
      rw [hpre, hup]
      simp
    · intro g hg
      rw [List.mem_map] at hg
      obtain ⟨g0, hg0, rfl⟩ := hg
      have hbase : g0.out ++ g0.buf = done ∧ g0.stopping = t := by
        rcases List.mem_or_eq_of_mem_set hg0 with hg' | hg'
        · exact hforks g0 hg'
        · subst hg'
          exact hforks f (List.get?_mem hf)
      refine ⟨?_, hbase.2⟩
      show g0.out ++ (g0.buf ++ [v]) = done ++ [v]
      rw [← List.append_assoc, hbase.1]
    · intro h
      rw [ht] at h
      cases h
    · intro _
      exact hcnt0
    · show List.countP (fun (g : ForkSt γ) => decide (g.phase = ForkPhase.fetching))
          ((s.forks.set i { f with phase := ForkPhase.ready }).map
            (fun g => { g with buf := g.buf ++ [v] })) ≤ 1
      rw [hcnt0]
      omega
    · show s.advances = _
      rw [hadv, hsemT, ht]
      simp
  | fetchEnd i f hf hph hup =>
    have hcpos : 0 < countFetching s := by
      simp only [countFetching]
      rw [List.countP_pos_iff]
      exact ⟨f, List.get?_mem hf, by simp [hph]⟩
    have hsemT : s.sem = true := by
      cases hsv : s.sem
      · have h0 := hsem0 hsv
        omega
      · rfl
    have ht : t = false := by
      cases htv : t
      · rfl
      · obtain ⟨hs0, _⟩ := hterm htv
        rw [hsemT] at hs0
        cases hs0
    have hc := countP_set_add (fun (g : ForkSt γ) => decide (g.phase = ForkPhase.fetching))
        s.forks i f { f with phase := ForkPhase.ready } hf
    simp [hph] at hc
    have hcnt0 : ((s.forks.set i { f with phase := ForkPhase.ready }).map
        (fun g => { g with stopping := true })).countP
          (fun g => decide (g.phase = ForkPhase.fetching)) = 0 := by
      rw [List.countP_map]
      have hco : ((fun (g : ForkSt γ) => decide (g.phase = ForkPhase.fetching)) ∘
          (fun g => { g with stopping := true }))
          = (fun (g : ForkSt γ) => decide (g.phase = ForkPhase.fetching)) := rfl
      rw [hco]
      simp only [countFetching] at hle hcpos
      omega
    refine ⟨done, true, ?_, ?_, ?_, ?_, ?_, ?_⟩
    · show xs = done ++ ([] : List γ)
      rw [hpre, hup]
    · intro g hg
      rw [List.mem_map] at hg
      obtain ⟨g0, hg0, rfl⟩ := hg
      have hbase : g0.out ++ g0.buf = done ∧ g0.stopping = t := by
        rcases List.mem_or_eq_of_mem_set hg0 with hg' | hg'
        · exact hforks g0 hg'
        · subst hg'
          exact hforks f (List.get?_mem hf)
      exact ⟨hbase.1, rfl⟩
    · intro _
      exact ⟨rfl, rfl⟩
    · intro _
      exact hcnt0
    · show List.countP (fun (g : ForkSt γ) => decide (g.phase = ForkPhase.fetching))
          ((s.forks.set i { f with phase := ForkPhase.ready }).map
            (fun g => { g with stopping := true })) ≤ 1
      rw [hcnt0]
      omega
    · show s.advances = _
      rw [hadv, hsemT, ht]
      simp

/-- Helper: every reachable forker state satisfies the invariant. -/
theorem forker_inv_reachable (γ : Type) (xs : List γ) (n : Nat) (s : ForkerSt γ)
    (h : Reachable xs n s) : ForkerInv xs s := by
  have h' : Relation.ReflTransGen Step (ForkerSt.init xs n) s := h
  clear h
  induction h' with
  | refl => exact forker_inv_init γ xs n
  | tail hreach hstep ih => exact forker_inv_step γ xs _ _ ih hstep

/-- Claim C4: in every reachable state of an `aiter_forker` (any number of
active forks, any interleaving) at most one upstream `__anext__` call is in
flight — a fork that calls `_fetch_next` while the `_is_fetching` semaphore
is held waits instead of issuing a duplicate pull — and the total number of
upstream `__anext__` calls ever issued never exceeds the number of upstream
items plus one terminal signal. -/
theorem claim_C4_single_flight_fetch :
    ∀ (γ : Type) (xs : List γ) (n : Nat) (s : ForkerSt γ),
      Reachable xs n s →
        countFetching s ≤ 1 ∧ s.advances ≤ xs.length + 1 := by
  intro γ xs n s h
  obtain ⟨done, t, hpre, hforks, hterm, hsem0, hle, hadv⟩ :=
    forker_inv_reachable γ xs n s h
  refine ⟨hle, ?_⟩
  have hdl : done.length ≤ xs.length := by
    rw [hpre]
    simp
  rw [hadv]
  cases htv : t
  · cases hsv : s.sem <;> simp <;> omega
  · obtain ⟨hs0, _⟩ := hterm htv
    rw [hs0]
    simp
    omega

/-- Witness for C4: after one fork of two starts the first fetch, exactly one
fetch is in flight and one upstream call was issued. -/
theorem claim_C4_single_flight_fetch_witness :
    countFetching
        ({ upstream := [5, 7]
           forks := [{ buf := [], out := [], stopping := false, phase := ForkPhase.fetching },
                     { buf := [], out := [], stopping := false, phase := ForkPhase.ready }]
           sem := true
           advances := 1 } : ForkerSt Nat) ≤ 1 ∧
    ({ upstream := [5, 7]
       forks := [{ buf := [], out := [], stopping := false, phase := ForkPhase.fetching },
                 { buf := [], out := [], stopping := false, phase := ForkPhase.ready }]
       sem := true
       advances := 1 } : ForkerSt Nat).advances ≤ 3 :=
  claim_C4_single_flight_fetch Nat [5, 7] 2 _
    (Relation.ReflTransGen.single
      (Step.startFetch (ForkerSt.init [5, 7] 2) 0
        { buf := [], out := [], stopping := false, phase := ForkPhase.ready }
        rfl rfl rfl rfl rfl))

/-- Claim C5: in every reachable state of an `aiter_forker`, every registered
fork (active or passive) has received — its consumed output followed by its
still-buffered items — exactly the prefix of upstream values fetched so far,
in upstream order: all forks observe the identical sequence.  And if any fork
has been stopped, the upstream was exhausted and every registered fork has
been stopped. -/
theorem claim_C5_fanout_identical_sequences :
    ∀ (γ : Type) (xs : List γ) (n : Nat) (s : ForkerSt γ),
      Reachable xs n s →
        (∀ f ∈ s.forks, f.out ++ f.buf = xs.take (xs.length - s.upstream.length)) ∧
        ((∃ f ∈ s.forks, f.stopping = true) →
          s.upstream = [] ∧ ∀ f ∈ s.forks, f.stopping = true) := by
  intro γ xs n s h
  obtain ⟨done, t, hpre, hforks, hterm, hsem0, hle, hadv⟩ :=
    forker_inv_reachable γ xs n s h
  have hlen : xs.length - s.upstream.length = done.length := by
    rw [hpre]
    simp
  have htake : xs.take (xs.length - s.upstream.length) = done := by
    rw [hlen, hpre, List.take_left]
  constructor
  · intro f hf
    rw [htake]
    exact (hforks f hf).1
  · rintro ⟨f, hf, hstop⟩
    have htt : t = true := by
      have h2 := (hforks f hf).2
      rw [hstop] at h2
      exact h2.symm
    obtain ⟨_, hup⟩ := hterm htt
    refine ⟨hup, ?_⟩
    intro g hg
    rw [(hforks g hg).2, htt]

/-- Witness for C5: the initial two-fork state over `[5, 7]` is reachable;
there every fork has received the (empty) fetched prefix and no fork is
stopped. -/
theorem claim_C5_fanout_identical_sequences_witness :
    (∀ f ∈ (ForkerSt.init [5, 7] 2 : ForkerSt Nat).forks,
       f.out ++ f.buf
         = ([5, 7] : List Nat).take
             (([5, 7] : List Nat).length
               - (ForkerSt.init [5, 7] 2 : ForkerSt Nat).upstream.length)) ∧
    ((∃ f ∈ (ForkerSt.init [5, 7] 2 : ForkerSt Nat).forks, f.stopping = true) →
      (ForkerSt.init [5, 7] 2 : ForkerSt Nat).upstream = []
        ∧ ∀ f ∈ (ForkerSt.init [5, 7] 2 : ForkerSt Nat).forks, f.stopping = true) :=
  claim_C5_fanout_identical_sequences Nat [5, 7] 2 _ Relation.ReflTransGen.refl

end Aitertools
